import Mathlib

/-!
Verification of the Siamese business-rule engine (`src/main.rs`).

The Rust source is shallowly embedded: `HashMap<String, Value>` becomes an
association list `List (String × Value)` (lookup is first match; insertion
overwrites in place, mirroring `HashMap::insert`), `f64` is modelled as an
exact rational `Rat` (every float literal appearing in the program is exactly
representable, `i64 as f64` widening is exact on the values in scope, and no
NaN is ever constructed), `i64` as `Int` and `u32` as `Nat` (only ordering of
priorities is observable, so the machine width is irrelevant), and fallible
Rust functions returning `Result` become `Except`.  Rust's `Debug` rendering,
used only inside `TypeMismatch` error messages, is modelled structurally by
`debugValue`; no claim depends on the exact text of those messages.
-/

namespace Siamese

/-- Value models the `Value` enum of the source: the dynamically typed datum
used for facts, rule literals and outputs. -/
inductive Value where
  | String (s : String)
  | Int (i : ℤ)
  | Float (q : Rat)
  | Bool (b : Bool)
  | List (l : List Value)
  | Map (m : List (String × Value))
  | Null

/-- RuleEngineError models the `RuleEngineError` enum of the source. -/
inductive RuleEngineError where
  | ParseError (msg : String)
  | ExecutionError (msg : String)
  | EvaluationError (msg : String)
  | InvalidRuleFormat (msg : String)
  | TypeMismatch (msg : String)
  | ActionFailed (msg : String)
  deriving DecidableEq

/-- Condition models the `Condition` enum of the source. -/
inductive Condition where
  | Equals (field : String) (value : Value)
  | GreaterThan (field : String) (value : Value)
  | LessThan (field : String) (value : Value)
  | Contains (field : String) (value : Value)
  | And (conds : List Condition)
  | Or (conds : List Condition)
  | Not (cond : Condition)

/-- Action models the `Action` enum of the source. -/
inductive Action where
  | Log (message : String)
  | UpdateField (field : String) (value : Value)
  | CallExternalService (endpoint : String) (payload : List (String × Value))
  | SendEvent (event_type : String) (data : List (String × Value))
  | Composite (actions : List Action)

/-- Rule models the `Rule` struct of the source. -/
structure Rule where
  id : String
  name : String
  description : Option String
  priority : ℕ
  condition : Condition
  actions : List Action
  enabled : Bool

/-- RuleContext models the `RuleContext` struct: the per-run facts snapshot
and the accumulated outputs.  The `external_data` slot (a map of
`Box<dyn Any>`) is never read or written by any code under verification and
is omitted. -/
structure RuleContext where
  facts : List (String × Value)
  outputs : List (String × Value)

/-- alGet models `HashMap::get`: first (unique) binding of the key. -/
def alGet {β : Type} : List (String × β) → String → Option β
  | [], _ => none
  | (k, v) :: rest, key => if k = key then some v else alGet rest key

/-- alInsert models `HashMap::insert`: overwrite the existing binding of the
key in place, or append a fresh binding. -/
def alInsert {β : Type} (key : String) (val : β) : List (String × β) → List (String × β)
  | [] => [(key, val)]
  | (k, v) :: rest => if k = key then (key, val) :: rest else (k, v) :: alInsert key val rest

/-- alRemove models `HashMap::remove` (result state only): drop the binding
of the key. -/
def alRemove {β : Type} (key : String) (m : List (String × β)) : List (String × β) :=
  m.filter (fun e => !(e.1 == key))

mutual

/-- valueBeq models the derived `PartialEq` of `Value`: structural,
variant-exact equality (on the rational model of `f64` the derived float
equality coincides with `Rat` equality, as no NaN is constructible). -/
def valueBeq : Value → Value → Bool
  | .String a, .String b => a == b
  | .Int a, .Int b => a == b
  | .Float a, .Float b => a == b
  | .Bool a, .Bool b => a == b
  | .List a, .List b => valueListBeq a b
  | .Map a, .Map b => valueEntriesBeq a b
  | .Null, .Null => true
  | _, _ => false

/-- valueListBeq is the elementwise `PartialEq` of `Vec<Value>`. -/
def valueListBeq : List Value → List Value → Bool
  | [], [] => true
  | a :: as, b :: bs => valueBeq a b && valueListBeq as bs
  | _, _ => false

/-- valueEntriesBeq is the entrywise equality of the ordered association-list
model of `HashMap<String, Value>`. -/
def valueEntriesBeq : List (String × Value) → List (String × Value) → Bool
  | [], [] => true
  | (k1, v1) :: as, (k2, v2) :: bs => k1 == k2 && valueBeq v1 v2 && valueEntriesBeq as bs
  | _, _ => false

end

mutual

/-- debugValue models the derived `Debug` rendering of `Value`, used only to
build `TypeMismatch` message strings (float rendering is abstracted to the
`Rat` printer). -/
def debugValue : Value → String
  | .String s => "String(\"" ++ s ++ "\")"
  | .Int i => "Int(" ++ toString i ++ ")"
  | .Float q => "Float(" ++ toString q ++ ")"
  | .Bool b => "Bool(" ++ toString b ++ ")"
  | .List vs => "List([" ++ debugValueList vs ++ "])"
  | .Map es => "Map(\x7b" ++ debugValueEntries es ++ "\x7d)"
  | .Null => "Null"

/-- debugValueList renders a list of values, comma separated. -/
def debugValueList : List Value → String
  | [] => ""
  | [v] => debugValue v
  | v :: vs => debugValue v ++ ", " ++ debugValueList vs

/-- debugValueEntries renders map entries, comma separated. -/
def debugValueEntries : List (String × Value) → String
  | [] => ""
  | [(k, v)] => "\"" ++ k ++ "\": " ++ debugValue v
  | (k, v) :: es => "\"" ++ k ++ "\": " ++ debugValue v ++ ", " ++ debugValueEntries es

end

/-- strContains models Rust's `str::contains` substring test: true iff the
pattern is empty or occurs in the string. -/
def strContains (s sub : String) : Bool :=
  sub.isEmpty || (s.splitOn sub).length > 1

/-- missingFieldError is the `EvaluationError` built by every leaf predicate
when the referenced field is absent from the fact map. -/
def missingFieldError (field : String) : RuleEngineError :=
  .EvaluationError ("字段不存在: " ++ field)

/-- cmpMismatchError is the `TypeMismatch` built by `GreaterThan`/`LessThan`
on a non-numeric operand pairing. -/
def cmpMismatchError (fact_value value : Value) : RuleEngineError :=
  .TypeMismatch ("无法比较 " ++ debugValue fact_value ++ " 和 " ++ debugValue value)

mutual

/-- evaluate_condition models `RuleExecutor::evaluate_condition`: the
recursive-descent evaluation of a condition tree against the fact map. -/
def evaluate_condition : Condition → List (String × Value) → Except RuleEngineError Bool
  | .Equals field value, facts =>
    match alGet facts field with
    | none => .error (missingFieldError field)
    | some fact_value => .ok (valueBeq fact_value value)
  | .GreaterThan field value, facts =>
    match alGet facts field with
    | none => .error (missingFieldError field)
    | some fact_value =>
      match fact_value, value with
      | .Int a, .Int b => .ok (decide (a > b))
      | .Float a, .Float b => .ok (decide (a > b))
      | .Float a, .Int b => .ok (decide (a > (b : Rat)))
      | .Int a, .Float b => .ok (decide ((a : Rat) > b))
      | fv, v => .error (cmpMismatchError fv v)
  | .LessThan field value, facts =>
    match alGet facts field with
    | none => .error (missingFieldError field)
    | some fact_value =>
      match fact_value, value with
      | .Int a, .Int b => .ok (decide (a < b))
      | .Float a, .Float b => .ok (decide (a < b))
      | .Float a, .Int b => .ok (decide (a < (b : Rat)))
      | .Int a, .Float b => .ok (decide ((a : Rat) < b))
      | fv, v => .error (cmpMismatchError fv v)
  | .Contains field value, facts =>
    match alGet facts field with
    | none => .error (missingFieldError field)
    | some fact_value =>
      match fact_value with
      | .String s =>
        match value with
        | .String sub => .ok (strContains s sub)
        | _ => .error (.TypeMismatch "Contains操作需要字符串")
      | .List list => .ok (list.any (fun x => valueBeq x value))
      | _ => .error (.TypeMismatch ("字段 " ++ field ++ " 不支持contains操作"))
  | .And conds, facts => evalAndList conds facts
  | .Or conds, facts => evalOrList conds facts
  | .Not cond, facts =>
    match evaluate_condition cond facts with
    | .error e => .error e
    | .ok result => .ok (!result)

/-- evalAndList models the `Condition::And` loop: left to right, return
`Ok(false)` at the first false child, propagate the first error, `Ok(true)`
when the list is exhausted (vacuously true on `[]`). -/
def evalAndList : List Condition → List (String × Value) → Except RuleEngineError Bool
  | [], _ => .ok true
  | c :: cs, facts =>
    match evaluate_condition c facts with
    | .error e => .error e
    | .ok false => .ok false
    | .ok true => evalAndList cs facts

/-- evalOrList models the `Condition::Or` loop: left to right, return
`Ok(true)` at the first true child, propagate the first error, `Ok(false)`
when the list is exhausted. -/
def evalOrList : List Condition → List (String × Value) → Except RuleEngineError Bool
  | [], _ => .ok false
  | c :: cs, facts =>
    match evaluate_condition c facts with
    | .error e => .error e
    | .ok true => .ok true
    | .ok false => evalOrList cs facts

end

mutual

/-- execute_action models `RuleExecutor::execute_action`: `Log` and
`SendEvent` only print (no context mutation), `UpdateField` overwrites the
output field, `CallExternalService` is a stub that records a synthetic
success marker, `Composite` runs its children in order, failing fast. -/
def execute_action : Action → RuleContext → Except RuleEngineError RuleContext
  | .Log _message, context => .ok context
  | .UpdateField field value, context =>
    .ok { context with outputs := alInsert field value context.outputs }
  | .CallExternalService endpoint _payload, context =>
    .ok { context with
          outputs := alInsert (endpoint.replace "/" "_" ++ "_response")
            (.String "SUCCESS") context.outputs }
  | .SendEvent _event_type _data, context => .ok context
  | .Composite actions, context => execute_action_list actions context

/-- execute_action_list models a `for` loop over actions with `?` on each
`execute_action` call (used both for `Composite` and for a rule's action
list in `execute`). -/
def execute_action_list : List Action → RuleContext → Except RuleEngineError RuleContext
  | [], context => .ok context
  | a :: rest, context =>
    match execute_action a context with
    | .error e => .error e
    | .ok context' => execute_action_list rest context'

end

/-- run_rules models the `for rule in sorted_rules` loop of
`RuleExecutor::execute`: skip disabled rules, evaluate the condition against
the original facts with `?`, and when it holds run the rule's actions with
`?`.  The returned string list records, in order, the ids of the rules that
fired (the `规则触发` prints of the source), so that which-rules-fired is an
observable of the model. -/
def run_rules : List Rule → List (String × Value) → RuleContext →
    Except RuleEngineError (RuleContext × List String)
  | [], _, context => .ok (context, [])
  | rule :: rest, facts, context =>
    if !rule.enabled then run_rules rest facts context
    else
      match evaluate_condition rule.condition facts with
      | .error e => .error e
      | .ok false => run_rules rest facts context
      | .ok true =>
        match execute_action_list rule.actions context with
        | .error e => .error e
        | .ok context' =>
          match run_rules rest facts context' with
          | .error e => .error e
          | .ok (contextF, fired) => .ok (contextF, rule.id :: fired)

/-- sortRules models `sorted_rules.sort_by(|a, b| b.priority.cmp(&a.priority))`:
a stable sort putting higher priorities first.  Rust's `sort_by` is stable,
and every stable sort under the same comes-before relation produces the same
list, so insertion sort is an exact model. -/
def sortRules (rules : List Rule) : List Rule :=
  rules.insertionSort (fun a b => b.priority ≤ a.priority)

/-- execute models `RuleExecutor::execute`: build a fresh context from a
snapshot of the facts, sort the stored rules by descending priority, run the
loop, and return the accumulated outputs (the fired-rule trace is internal
to the run). -/
def execute (rules : List Rule) (facts : List (String × Value)) :
    Except RuleEngineError (List (String × Value)) :=
  let context : RuleContext := { facts := facts, outputs := [] }
  match run_rules (sortRules rules) facts context with
  | .error e => .error e
  | .ok (contextF, _fired) => .ok contextF.outputs

/-- RuleExecutor models the rule store of the source: the canonical rule
list plus the id-indexed `rule_cache`.  The `context` field of the Rust
struct is never read by any verified operation and is omitted. -/
structure RuleExecutor where
  rules : List Rule
  rule_cache : List (String × Rule)

/-- RuleExecutor.new models `RuleExecutor::new`. -/
def RuleExecutor.new : RuleExecutor :=
  { rules := [], rule_cache := [] }

/-- RuleExecutor.add_rule models `add_rule`: push onto the list and insert
(last write wins) into the cache. -/
def RuleExecutor.add_rule (ex : RuleExecutor) (rule : Rule) : RuleExecutor :=
  { rules := ex.rules ++ [rule], rule_cache := alInsert rule.id rule ex.rule_cache }

/-- RuleExecutor.add_rules models `add_rules`: `add_rule` for each rule in
order. -/
def RuleExecutor.add_rules (ex : RuleExecutor) (rules : List Rule) : RuleExecutor :=
  rules.foldl RuleExecutor.add_rule ex

/-- RuleExecutor.remove_rule models `remove_rule`: retain the list entries
with a different id and delete the cache binding. -/
def RuleExecutor.remove_rule (ex : RuleExecutor) (rule_id : String) : RuleExecutor :=
  { rules := ex.rules.filter (fun r => !(r.id == rule_id)),
    rule_cache := alRemove rule_id ex.rule_cache }

/-- RuleExecutor.update_rule models `update_rule`: remove then add. -/
def RuleExecutor.update_rule (ex : RuleExecutor) (rule : Rule) : RuleExecutor :=
  (ex.remove_rule rule.id).add_rule rule

/-- Json models the structured serialized form produced by serde for the
`Serialize`/`Deserialize` derives on `Rule`, `Condition`, `Action` and
`Value` (externally tagged variants, as in `serde_json`).  Numbers keep the
integer/float distinction that `serde_json::Number` keeps, with floats on
the same exact-rational model as `Value.Float`. -/
inductive Json where
  | null
  | bool (b : Bool)
  | int (n : ℤ)
  | float (q : Rat)
  | str (s : String)
  | arr (elems : List Json)
  | obj (fields : List (String × Json))

mutual

/-- encodeValue models `serde_json::to_value` on `Value`: externally tagged
variants (`{"Int": 5}`, unit variant `Null` as the bare string `"Null"`). -/
def encodeValue : Value → Json
  | .String s => .obj [("String", .str s)]
  | .Int i => .obj [("Int", .int i)]
  | .Float q => .obj [("Float", .float q)]
  | .Bool b => .obj [("Bool", .bool b)]
  | .List vs => .obj [("List", .arr (encodeValueList vs))]
  | .Map es => .obj [("Map", .obj (encodeValueEntries es))]
  | .Null => .str "Null"

/-- encodeValueList serializes a `Vec<Value>` elementwise. -/
def encodeValueList : List Value → List Json
  | [] => []
  | v :: vs => encodeValue v :: encodeValueList vs

/-- encodeValueEntries serializes a `HashMap<String, Value>` entrywise. -/
def encodeValueEntries : List (String × Value) → List (String × Json)
  | [] => []
  | (k, v) :: es => (k, encodeValue v) :: encodeValueEntries es

end

mutual

/-- decodeValue models the serde-derived deserializer for `Value` on the
shapes `encodeValue` produces (the derive also tolerates some other
re-orderings and numeric widenings; only the shapes reachable from a
serialization round trip are modelled). -/
def decodeValue : Json → Option Value
  | .str s => if s = "Null" then some .Null else none
  | .obj [(tag, body)] =>
    if tag = "String" then
      match body with
      | .str s => some (.String s)
      | _ => none
    else if tag = "Int" then
      match body with
      | .int n => some (.Int n)
      | _ => none
    else if tag = "Float" then
      match body with
      | .float q => some (.Float q)
      | _ => none
    else if tag = "Bool" then
      match body with
      | .bool b => some (.Bool b)
      | _ => none
    else if tag = "List" then
      match body with
      | .arr js => (decodeValueList js).map Value.List
      | _ => none
    else if tag = "Map" then
      match body with
      | .obj fs => (decodeValueEntries fs).map Value.Map
      | _ => none
    else none
  | _ => none

/-- decodeValueList deserializes a JSON array into a `Vec<Value>`. -/
def decodeValueList : List Json → Option (List Value)
  | [] => some []
  | j :: js =>
    match decodeValue j, decodeValueList js with
    | some v, some vs => some (v :: vs)
    | _, _ => none

/-- decodeValueEntries deserializes a JSON object into a
`HashMap<String, Value>`. -/
def decodeValueEntries : List (String × Json) → Option (List (String × Value))
  | [] => some []
  | (k, j) :: es =>
    match decodeValue j, decodeValueEntries es with
    | some v, some vs => some ((k, v) :: vs)
    | _, _ => none

end

mutual

/-- encodeCondition models the serde serializer for `Condition`: struct
variants carry a field object, `And`/`Or` carry an array, the newtype
variant `Not` carries its child directly. -/
def encodeCondition : Condition → Json
  | .Equals field value =>
    .obj [("Equals", .obj [("field", .str field), ("value", encodeValue value)])]
  | .GreaterThan field value =>
    .obj [("GreaterThan", .obj [("field", .str field), ("value", encodeValue value)])]
  | .LessThan field value =>
    .obj [("LessThan", .obj [("field", .str field), ("value", encodeValue value)])]
  | .Contains field value =>
    .obj [("Contains", .obj [("field", .str field), ("value", encodeValue value)])]
  | .And conds => .obj [("And", .arr (encodeConditionList conds))]
  | .Or conds => .obj [("Or", .arr (encodeConditionList conds))]
  | .Not cond => .obj [("Not", encodeCondition cond)]

/-- encodeConditionList serializes a `Vec<Condition>` elementwise. -/
def encodeConditionList : List Condition → List Json
  | [] => []
  | c :: cs => encodeCondition c :: encodeConditionList cs

end

/-- decodeConditionLeaf deserializes the `{"field": .., "value": ..}` body
shared by the four leaf predicate variants. -/
def decodeConditionLeaf (mk : String → Value → Condition) : Json → Option Condition
  | .obj [("field", .str field), ("value", jv)] =>
    match decodeValue jv with
    | some v => some (mk field v)
    | none => none
  | _ => none

mutual

/-- decodeCondition models the serde-derived deserializer for `Condition`
on the shapes `encodeCondition` produces. -/
def decodeCondition : Json → Option Condition
  | .obj [(tag, body)] =>
    if tag = "Equals" then decodeConditionLeaf Condition.Equals body
    else if tag = "GreaterThan" then decodeConditionLeaf Condition.GreaterThan body
    else if tag = "LessThan" then decodeConditionLeaf Condition.LessThan body
    else if tag = "Contains" then decodeConditionLeaf Condition.Contains body
    else if tag = "And" then
      match body with
      | .arr js => (decodeConditionList js).map Condition.And
      | _ => none
    else if tag = "Or" then
      match body with
      | .arr js => (decodeConditionList js).map Condition.Or
      | _ => none
    else if tag = "Not" then (decodeCondition body).map Condition.Not
    else none
  | _ => none

/-- decodeConditionList deserializes a JSON array into a `Vec<Condition>`. -/
def decodeConditionList : List Json → Option (List Condition)
  | [] => some []
  | j :: js =>
    match decodeCondition j, decodeConditionList js with
    | some c, some cs => some (c :: cs)
    | _, _ => none

end

mutual

/-- encodeAction models the serde serializer for `Action`. -/
def encodeAction : Action → Json
  | .Log message => .obj [("Log", .obj [("message", .str message)])]
  | .UpdateField field value =>
    .obj [("UpdateField", .obj [("field", .str field), ("value", encodeValue value)])]
  | .CallExternalService endpoint payload =>
    .obj [("CallExternalService",
      .obj [("endpoint", .str endpoint), ("payload", .obj (encodeValueEntries payload))])]
  | .SendEvent event_type data =>
    .obj [("SendEvent",
      .obj [("event_type", .str event_type), ("data", .obj (encodeValueEntries data))])]
  | .Composite actions => .obj [("Composite", .arr (encodeActionList actions))]

/-- encodeActionList serializes a `Vec<Action>` elementwise. -/
def encodeActionList : List Action → List Json
  | [] => []
  | a :: rest => encodeAction a :: encodeActionList rest

end

mutual

/-- decodeAction models the serde-derived deserializer for `Action` on the
shapes `encodeAction` produces. -/
def decodeAction : Json → Option Action
  | .obj [(tag, body)] =>
    if tag = "Log" then
      match body with
      | .obj [("message", .str message)] => some (.Log message)
      | _ => none
    else if tag = "UpdateField" then
      match body with
      | .obj [("field", .str field), ("value", jv)] =>
        (decodeValue jv).map (Action.UpdateField field)
      | _ => none
    else if tag = "CallExternalService" then
      match body with
      | .obj [("endpoint", .str endpoint), ("payload", .obj jp)] =>
        (decodeValueEntries jp).map (Action.CallExternalService endpoint)
      | _ => none
    else if tag = "SendEvent" then
      match body with
      | .obj [("event_type", .str event_type), ("data", .obj jd)] =>
        (decodeValueEntries jd).map (Action.SendEvent event_type)
      | _ => none
    else if tag = "Composite" then
      match body with
      | .arr js => (decodeActionList js).map Action.Composite
      | _ => none
    else none
  | _ => none

/-- decodeActionList deserializes a JSON array into a `Vec<Action>`. -/
def decodeActionList : List Json → Option (List Action)
  | [] => some []
  | j :: js =>
    match decodeAction j, decodeActionList js with
    | some a, some rest => some (a :: rest)
    | _, _ => none

end

/-- encodeOptString models serde's `Option<String>` serialization:
`None` as `null`, `Some` as the bare string. -/
def encodeOptString : Option String → Json
  | none => .null
  | some s => .str s

/-- decodeOptString inverts `encodeOptString`. -/
def decodeOptString : Json → Option (Option String)
  | .null => some none
  | .str s => some (some s)
  | _ => none

/-- encodeRule models the serde serializer for the `Rule` struct: an object
with one entry per field, in declaration order. -/
def encodeRule (r : Rule) : Json :=
  .obj [("id", .str r.id), ("name", .str r.name),
        ("description", encodeOptString r.description),
        ("priority", .int (r.priority : ℤ)),
        ("condition", encodeCondition r.condition),
        ("actions", .arr (encodeActionList r.actions)),
        ("enabled", .bool r.enabled)]

/-- decodeRule models the serde-derived deserializer for `Rule` on the
shapes `encodeRule` produces (priority must be a non-negative integer, as
`u32` deserialization requires). -/
def decodeRule : Json → Option Rule
  | .obj [("id", .str id), ("name", .str name), ("description", jd),
          ("priority", .int p), ("condition", jc), ("actions", .arr ja),
          ("enabled", .bool enabled)] =>
    if 0 ≤ p then
      match decodeOptString jd, decodeCondition jc, decodeActionList ja with
      | some description, some condition, some actions =>
        some { id := id, name := name, description := description,
               priority := p.toNat, condition := condition,
               actions := actions, enabled := enabled }
      | _, _, _ => none
    else none
  | _ => none

/-- isCondError holds exactly on the two error kinds that
`evaluate_condition` can construct. -/
def isCondError : RuleEngineError → Bool
  | .EvaluationError _ => true
  | .TypeMismatch _ => true
  | _ => false

/-- isNumeric holds on the two `Value` variants accepted by
`GreaterThan`/`LessThan`. -/
def isNumeric : Value → Bool
  | .Int _ => true
  | .Float _ => true
  | _ => false

/-- mkRule builds a concrete rule for test scenarios (name = id, no
description). -/
def mkRule (id : String) (priority : ℕ) (condition : Condition)
    (actions : List Action) (enabled : Bool) : Rule :=
  { id := id, name := id, description := none, priority := priority,
    condition := condition, actions := actions, enabled := enabled }

/-- Sync states the claimed store invariant: list ids are unique, every
listed rule is in the cache under its id, and every cache binding points
back to a listed rule (no dangling entries). -/
def Sync (ex : RuleExecutor) : Prop :=
  (ex.rules.map Rule.id).Nodup
  ∧ (∀ r ∈ ex.rules, alGet ex.rule_cache r.id = some r)
  ∧ (∀ (i : String) (r : Rule), alGet ex.rule_cache i = some r → r ∈ ex.rules ∧ r.id = i)

/-- EngineOp is one mutating store operation of `RuleExecutor`. -/
inductive EngineOp where
  | add (rule : Rule)
  | addMany (rules : List Rule)
  | remove (rule_id : String)
  | update (rule : Rule)

/-- applyOp runs one store operation. -/
def applyOp (ex : RuleExecutor) : EngineOp → RuleExecutor
  | .add r => ex.add_rule r
  | .addMany rs => ex.add_rules rs
  | .remove i => ex.remove_rule i
  | .update r => ex.update_rule r

/-- applyOps runs a sequence of store operations from left to right. -/
def applyOps (ex : RuleExecutor) (ops : List EngineOp) : RuleExecutor :=
  ops.foldl applyOp ex

/-- FreshAdd states that a rule's id is not currently stored. -/
def FreshAdd (ex : RuleExecutor) (r : Rule) : Prop :=
  r.id ∉ ex.rules.map Rule.id

/-- FreshBatch states that each rule of a batch is fresh at the moment it is
added. -/
def FreshBatch : RuleExecutor → List Rule → Prop
  | _, [] => True
  | ex, r :: rs => FreshAdd ex r ∧ FreshBatch (ex.add_rule r) rs

/-- FreshTrace states that along an operation sequence, no `add`/`addMany`
ever adds an id that is already stored (`remove` and `update` are
unrestricted). -/
def FreshTrace : RuleExecutor → List EngineOp → Prop
  | _, [] => True
  | ex, .add r :: ops => FreshAdd ex r ∧ FreshTrace (ex.add_rule r) ops
  | ex, .addMany rs :: ops => FreshBatch ex rs ∧ FreshTrace (ex.add_rules rs) ops
  | ex, .remove i :: ops => FreshTrace (ex.remove_rule i) ops
  | ex, .update r :: ops => FreshTrace (ex.update_rule r) ops

mutual

/-- decodeValue_encodeValue: deserializing a serialized `Value` gives the
value back. -/
theorem decodeValue_encodeValue : (v : Value) → decodeValue (encodeValue v) = some v
  | .String s => by simp [encodeValue, decodeValue]
  | .Int i => by simp [encodeValue, decodeValue]
  | .Float q => by simp [encodeValue, decodeValue]
  | .Bool b => by simp [encodeValue, decodeValue]
  | .List vs => by simp [encodeValue, decodeValue, decodeValueList_encodeValueList vs]
  | .Map es => by simp [encodeValue, decodeValue, decodeValueEntries_encodeValueEntries es]
  | .Null => by simp [encodeValue, decodeValue]

/-- decodeValueList_encodeValueList: elementwise round trip for value
lists. -/
theorem decodeValueList_encodeValueList :
    (vs : List Value) → decodeValueList (encodeValueList vs) = some vs
  | [] => by simp [encodeValueList, decodeValueList]
  | v :: vs => by
    simp [encodeValueList, decodeValueList, decodeValue_encodeValue v,
      decodeValueList_encodeValueList vs]

/-- decodeValueEntries_encodeValueEntries: entrywise round trip for value
maps. -/
theorem decodeValueEntries_encodeValueEntries :
    (es : List (String × Value)) → decodeValueEntries (encodeValueEntries es) = some es
  | [] => by simp [encodeValueEntries, decodeValueEntries]
  | (k, v) :: es => by
    simp [encodeValueEntries, decodeValueEntries, decodeValue_encodeValue v,
      decodeValueEntries_encodeValueEntries es]

end

mutual

/-- decodeCondition_encodeCondition: deserializing a serialized `Condition`
gives the condition back. -/
theorem decodeCondition_encodeCondition :
    (c : Condition) → decodeCondition (encodeCondition c) = some c
  | .Equals field value => by
    simp [encodeCondition, decodeCondition, decodeConditionLeaf, decodeValue_encodeValue value]
  | .GreaterThan field value => by
    simp [encodeCondition, decodeCondition, decodeConditionLeaf, decodeValue_encodeValue value]
  | .LessThan field value => by
    simp [encodeCondition, decodeCondition, decodeConditionLeaf, decodeValue_encodeValue value]
  | .Contains field value => by
    simp [encodeCondition, decodeCondition, decodeConditionLeaf, decodeValue_encodeValue value]
  | .And conds => by
    simp [encodeCondition, decodeCondition, decodeConditionList_encodeConditionList conds]
  | .Or conds => by
    simp [encodeCondition, decodeCondition, decodeConditionList_encodeConditionList conds]
  | .Not cond => by
    simp [encodeCondition, decodeCondition, decodeCondition_encodeCondition cond]

/-- decodeConditionList_encodeConditionList: elementwise round trip for
condition lists. -/
theorem decodeConditionList_encodeConditionList :
    (cs : List Condition) → decodeConditionList (encodeConditionList cs) = some cs
  | [] => by simp [encodeConditionList, decodeConditionList]
  | c :: cs => by
    simp [encodeConditionList, decodeConditionList, decodeCondition_encodeCondition c,
      decodeConditionList_encodeConditionList cs]

end

mutual

/-- decodeAction_encodeAction: deserializing a serialized `Action` gives the
action back. -/
theorem decodeAction_encodeAction : (a : Action) → decodeAction (encodeAction a) = some a
  | .Log message => by simp [encodeAction, decodeAction]
  | .UpdateField field value => by
    simp [encodeAction, decodeAction, decodeValue_encodeValue value]
  | .CallExternalService endpoint payload => by
    simp [encodeAction, decodeAction, decodeValueEntries_encodeValueEntries payload]
  | .SendEvent event_type data => by
    simp [encodeAction, decodeAction, decodeValueEntries_encodeValueEntries data]
  | .Composite actions => by
    simp [encodeAction, decodeAction, decodeActionList_encodeActionList actions]

/-- decodeActionList_encodeActionList: elementwise round trip for action
lists. -/
theorem decodeActionList_encodeActionList :
    (as : List Action) → decodeActionList (encodeActionList as) = some as
  | [] => by simp [encodeActionList, decodeActionList]
  | a :: rest => by
    simp [encodeActionList, decodeActionList, decodeAction_encodeAction a,
      decodeActionList_encodeActionList rest]

end

/-- decodeRule_encodeRule: deserializing a serialized `Rule` gives the rule
back. -/
theorem decodeRule_encodeRule (r : Rule) : decodeRule (encodeRule r) = some r := by
  cases r with
  | mk id name description priority condition actions enabled =>
    cases description <;>
      simp [encodeRule, decodeRule, encodeOptString, decodeOptString,
        decodeCondition_encodeCondition, decodeActionList_encodeActionList]

/-- alGet_alInsert_self: looking up the key just inserted yields the value
just inserted. -/
theorem alGet_alInsert_self {β : Type} (key : String) (val : β) (m : List (String × β)) :
    alGet (alInsert key val m) key = some val := by
  induction m with
  | nil => simp [alInsert, alGet]
  | cons e rest ih =>
    obtain ⟨k, v⟩ := e
    by_cases hk : k = key <;> simp [alInsert, alGet, hk, ih]

/-- alGet_alInsert_ne: inserting one key leaves the bindings of other keys
unchanged. -/
theorem alGet_alInsert_ne {β : Type} {i key : String} (hne : i ≠ key) (val : β)
    (m : List (String × β)) : alGet (alInsert key val m) i = alGet m i := by
  induction m with
  | nil => simp [alInsert, alGet, Ne.symm hne]
  | cons e rest ih =>
    obtain ⟨k, v⟩ := e
    by_cases hk : k = key
    · subst hk
      simp [alInsert, alGet, Ne.symm hne]
    · by_cases hi : k = i <;> simp [alInsert, alGet, hk, hi, ih, hne]

/-- alGet_alRemove_self: the removed key has no binding afterwards. -/
theorem alGet_alRemove_self {β : Type} (key : String) (m : List (String × β)) :
    alGet (alRemove key m) key = none := by
  induction m with
  | nil => simp [alRemove, alGet]
  | cons e rest ih =>
    obtain ⟨k, v⟩ := e
    simp only [alRemove] at ih ⊢
    by_cases hk : k = key <;> simp [List.filter_cons, alGet, hk, ih]

/-- alGet_alRemove_ne: removing one key leaves the bindings of other keys
unchanged. -/
theorem alGet_alRemove_ne {β : Type} {i key : String} (hne : i ≠ key)
    (m : List (String × β)) : alGet (alRemove key m) i = alGet m i := by
  induction m with
  | nil => simp [alRemove, alGet]
  | cons e rest ih =>
    obtain ⟨k, v⟩ := e
    simp only [alRemove] at ih ⊢
    by_cases hk : k = key
    · subst hk
      simp [List.filter_cons, alGet, Ne.symm hne, ih]
    · by_cases hi : k = i <;> simp [List.filter_cons, alGet, hk, hi, ih, hne]

mutual

/-- execute_action_ok: every action variant succeeds on every context (the
external-service and event stubs always return `Ok`). -/
theorem execute_action_ok :
    (a : Action) → (c : RuleContext) → ∃ c', execute_action a c = .ok c'
  | .Log m, c => ⟨c, by simp [execute_action]⟩
  | .UpdateField f v, c => by
    simp only [execute_action]
    exact ⟨_, rfl⟩
  | .CallExternalService ep p, c => by
    simp only [execute_action]
    exact ⟨_, rfl⟩
  | .SendEvent et d, c => ⟨c, by simp [execute_action]⟩
  | .Composite actions, c => by
    obtain ⟨c', hc'⟩ := execute_action_list_ok actions c
    exact ⟨c', by simp [execute_action, hc']⟩

/-- execute_action_list_ok: running any list of actions succeeds. -/
theorem execute_action_list_ok :
    (actions : List Action) → (c : RuleContext) →
      ∃ c', execute_action_list actions c = .ok c'
  | [], c => ⟨c, by simp [execute_action_list]⟩
  | a :: rest, c => by
    obtain ⟨c₁, hc₁⟩ := execute_action_ok a c
    obtain ⟨c₂, hc₂⟩ := execute_action_list_ok rest c₁
    exact ⟨c₂, by simp [execute_action_list, hc₁, hc₂]⟩

end

/-- run_rules_cons_disabled: a disabled rule at the head of the loop is
skipped outright. -/
theorem run_rules_cons_disabled {r : Rule} (hr : r.enabled = false) (rest : List Rule)
    (facts : List (String × Value)) (c : RuleContext) :
    run_rules (r :: rest) facts c = run_rules rest facts c := by
  simp [run_rules, hr]

/-- run_rules_cons_enabled: loop unfolding for an enabled head rule. -/
theorem run_rules_cons_enabled {r : Rule} (hr : r.enabled = true) (rest : List Rule)
    (facts : List (String × Value)) (c : RuleContext) :
    run_rules (r :: rest) facts c =
      match evaluate_condition r.condition facts with
      | .error e => .error e
      | .ok false => run_rules rest facts c
      | .ok true =>
        match execute_action_list r.actions c with
        | .error e => .error e
        | .ok c' =>
          match run_rules rest facts c' with
          | .error e => .error e
          | .ok (contextF, fired) => .ok (contextF, r.id :: fired) := by
  simp [run_rules, hr]

/-- run_rules_append: running a concatenated rule list is running the first
part, then the second from the resulting context, concatenating the fired
traces; an error in the first part is final. -/
theorem run_rules_append (l₁ l₂ : List Rule) (facts : List (String × Value))
    (c : RuleContext) :
    run_rules (l₁ ++ l₂) facts c =
      match run_rules l₁ facts c with
      | .error e => .error e
      | .ok (c', f₁) =>
        match run_rules l₂ facts c' with
        | .error e => .error e
        | .ok (c'', f₂) => .ok (c'', f₁ ++ f₂) := by
  induction l₁ generalizing c with
  | nil =>
    simp only [List.nil_append, run_rules]
    cases run_rules l₂ facts c with
    | error e => rfl
    | ok p => rfl
  | cons r rest ih =>
    rw [List.cons_append]
    cases hr : r.enabled with
    | false => rw [run_rules_cons_disabled hr, run_rules_cons_disabled hr, ih c]
    | true =>
      cases hev : evaluate_condition r.condition facts with
      | error e => simp only [run_rules_cons_enabled hr, hev]
      | ok b =>
        cases b with
        | false =>
          simp only [run_rules_cons_enabled hr, hev]
          exact ih c
        | true =>
          cases hal : execute_action_list r.actions c with
          | error e => simp only [run_rules_cons_enabled hr, hev, hal]
          | ok c' =>
            simp only [run_rules_cons_enabled hr, hev, hal]
            rw [ih c']
            cases hrest : run_rules rest facts c' with
            | error e => rfl
            | ok p =>
              obtain ⟨c'', f₁⟩ := p
              cases hl : run_rules l₂ facts c'' with
              | error e => simp [hl]
              | ok q =>
                obtain ⟨c₂, f₂⟩ := q
                simp [hl]

/-- run_rules_trace_of_context: the fired-rule trace (and any error) of the
run loop does not depend on the starting context at all — conditions are
evaluated against the facts argument only, and actions always succeed. -/
theorem run_rules_trace_of_context (l : List Rule) (facts : List (String × Value))
    (c₁ c₂ : RuleContext) :
    (run_rules l facts c₁).map Prod.snd = (run_rules l facts c₂).map Prod.snd := by
  induction l generalizing c₁ c₂ with
  | nil => simp [run_rules, Except.map]
  | cons r rest ih =>
    cases hr : r.enabled with
    | false => rw [run_rules_cons_disabled hr, run_rules_cons_disabled hr]; exact ih c₁ c₂
    | true =>
      cases hev : evaluate_condition r.condition facts with
      | error e => simp only [run_rules_cons_enabled hr, hev]
      | ok b =>
        cases b with
        | false =>
          simp only [run_rules_cons_enabled hr, hev]
          exact ih c₁ c₂
        | true =>
          obtain ⟨c₁', h₁⟩ := execute_action_list_ok r.actions c₁
          obtain ⟨c₂', h₂⟩ := execute_action_list_ok r.actions c₂
          simp only [run_rules_cons_enabled hr, hev, h₁, h₂]
          have htr := ih c₁' c₂'
          cases e₁ : run_rules rest facts c₁' with
          | error e =>
            rw [e₁] at htr
            cases e₂ : run_rules rest facts c₂' with
            | error e' =>
              rw [e₂] at htr
              simp_all [Except.map]
            | ok q =>
              rw [e₂] at htr
              simp_all [Except.map]
          | ok p =>
            rw [e₁] at htr
            cases e₂ : run_rules rest facts c₂' with
            | error e' =>
              rw [e₂] at htr
              simp_all [Except.map]
            | ok q =>
              rw [e₂] at htr
              obtain ⟨cf₁, f₁⟩ := p
              obtain ⟨cf₂, f₂⟩ := q
              simp_all [Except.map]

/-- run_rules_filter_enabled: disabled rules are invisible to the run loop:
running a list is running its enabled sublist. -/
theorem run_rules_filter_enabled (l : List Rule) (facts : List (String × Value))
    (c : RuleContext) :
    run_rules l facts c = run_rules (l.filter (fun r => r.enabled)) facts c := by
  induction l generalizing c with
  | nil => simp
  | cons r rest ih =>
    cases hr : r.enabled with
    | false =>
      rw [run_rules_cons_disabled hr, List.filter_cons_of_neg (by simp [hr])]
      exact ih c
    | true =>
      rw [List.filter_cons_of_pos (by simp [hr])]
      cases hev : evaluate_condition r.condition facts with
      | error e => simp only [run_rules_cons_enabled hr, hev]
      | ok b =>
        cases b with
        | false =>
          simp only [run_rules_cons_enabled hr, hev]
          exact ih c
        | true =>
          cases hal : execute_action_list r.actions c with
          | error e => simp only [run_rules_cons_enabled hr, hev, hal]
          | ok c' =>
            simp only [run_rules_cons_enabled hr, hev, hal]
            rw [ih c']

/-- isCondError_of_error_eq transfers the error-kind bound across an
`Except.error` equation. -/
theorem isCondError_of_error_eq {X e : RuleEngineError} (hX : isCondError X = true)
    (h : (Except.error X : Except RuleEngineError Bool) = .error e) : isCondError e = true := by
  obtain rfl : X = e := by simpa using h
  exact hX

mutual

/-- evaluate_condition_error_kind: condition evaluation only ever constructs
`EvaluationError` or `TypeMismatch` errors. -/
theorem evaluate_condition_error_kind :
    (c : Condition) → (facts : List (String × Value)) → (e : RuleEngineError) →
      evaluate_condition c facts = .error e → isCondError e = true
  | .Equals field value, facts, e, h => by
    cases hg : alGet facts field with
    | none =>
      simp only [evaluate_condition, hg] at h
      exact isCondError_of_error_eq (by simp [missingFieldError, isCondError]) h
    | some fv => simp [evaluate_condition, hg] at h
  | .GreaterThan field value, facts, e, h => by
    cases hg : alGet facts field with
    | none =>
      simp only [evaluate_condition, hg] at h
      exact isCondError_of_error_eq (by simp [missingFieldError, isCondError]) h
    | some fv =>
      cases fv <;> cases value <;> simp only [evaluate_condition, hg] at h <;>
        first
        | exact isCondError_of_error_eq (by simp [cmpMismatchError, isCondError]) h
        | exact absurd h (by simp)
  | .LessThan field value, facts, e, h => by
    cases hg : alGet facts field with
    | none =>
      simp only [evaluate_condition, hg] at h
      exact isCondError_of_error_eq (by simp [missingFieldError, isCondError]) h
    | some fv =>
      cases fv <;> cases value <;> simp only [evaluate_condition, hg] at h <;>
        first
        | exact isCondError_of_error_eq (by simp [cmpMismatchError, isCondError]) h
        | exact absurd h (by simp)
  | .Contains field value, facts, e, h => by
    cases hg : alGet facts field with
    | none =>
      simp only [evaluate_condition, hg] at h
      exact isCondError_of_error_eq (by simp [missingFieldError, isCondError]) h
    | some fv =>
      cases fv <;> cases value <;> simp only [evaluate_condition, hg] at h <;>
        first
        | exact isCondError_of_error_eq (by simp [isCondError]) h
        | exact absurd h (by simp)
  | .And conds, facts, e, h =>
    evalAndList_error_kind conds facts e (by simpa [evaluate_condition] using h)
  | .Or conds, facts, e, h =>
    evalOrList_error_kind conds facts e (by simpa [evaluate_condition] using h)
  | .Not cond, facts, e, h => by
    cases hc : evaluate_condition cond facts with
    | error e' =>
      have he : e' = e := by simp_all [evaluate_condition]
      exact he ▸ evaluate_condition_error_kind cond facts e' hc
    | ok b => simp_all [evaluate_condition]

/-- evalAndList_error_kind: the `And` loop only propagates errors produced
by child evaluation. -/
theorem evalAndList_error_kind :
    (cs : List Condition) → (facts : List (String × Value)) → (e : RuleEngineError) →
      evalAndList cs facts = .error e → isCondError e = true
  | [], _, e, h => by simp [evalAndList] at h
  | c :: cs, facts, e, h => by
    cases hc : evaluate_condition c facts with
    | error e' =>
      have he : e' = e := by simp_all [evalAndList]
      exact he ▸ evaluate_condition_error_kind c facts e' hc
    | ok b =>
      cases b with
      | false => simp_all [evalAndList]
      | true => exact evalAndList_error_kind cs facts e (by simp_all [evalAndList])

/-- evalOrList_error_kind: the `Or` loop only propagates errors produced by
child evaluation. -/
theorem evalOrList_error_kind :
    (cs : List Condition) → (facts : List (String × Value)) → (e : RuleEngineError) →
      evalOrList cs facts = .error e → isCondError e = true
  | [], _, e, h => by simp [evalOrList] at h
  | c :: cs, facts, e, h => by
    cases hc : evaluate_condition c facts with
    | error e' =>
      have he : e' = e := by simp_all [evalOrList]
      exact he ▸ evaluate_condition_error_kind c facts e' hc
    | ok b =>
      cases b with
      | true => simp_all [evalOrList]
      | false => exact evalOrList_error_kind cs facts e (by simp_all [evalOrList])

end

/-- run_rules_error_kind: the run loop can only fail with an error produced
by condition evaluation (actions never fail). -/
theorem run_rules_error_kind (l : List Rule) (facts : List (String × Value))
    (c : RuleContext) (e : RuleEngineError) (h : run_rules l facts c = .error e) :
    isCondError e = true := by
  induction l generalizing c with
  | nil => simp [run_rules] at h
  | cons r rest ih =>
    cases hr : r.enabled with
    | false => exact ih c (by rwa [run_rules_cons_disabled hr] at h)
    | true =>
      rw [run_rules_cons_enabled hr] at h
      cases hev : evaluate_condition r.condition facts with
      | error e' =>
        simp only [hev] at h
        have he : e' = e := by simpa using h
        exact he ▸ evaluate_condition_error_kind r.condition facts e' hev
      | ok b =>
        cases b with
        | false =>
          simp only [hev] at h
          exact ih c h
        | true =>
          obtain ⟨c', hal⟩ := execute_action_list_ok r.actions c
          simp only [hev, hal] at h
          cases hrest : run_rules rest facts c' with
          | error e'' =>
            simp only [hrest] at h
            have he : e'' = e := by simpa using h
            exact ih c' (he ▸ hrest)
          | ok p =>
            rw [hrest] at h
            obtain ⟨cf, f⟩ := p
            simp at h

/-- instIsTotalRulePriority: the comes-before relation of the rule sort is
total. -/
instance instIsTotalRulePriority : IsTotal Rule (fun a b => b.priority ≤ a.priority) :=
  ⟨fun a b => Nat.le_total b.priority a.priority⟩

/-- instIsTransRulePriority: the comes-before relation of the rule sort is
transitive. -/
instance instIsTransRulePriority : IsTrans Rule (fun a b => b.priority ≤ a.priority) :=
  ⟨fun _ _ _ hab hbc => Nat.le_trans hbc hab⟩

/-- orderedInsert_eq_cons: inserting an element that comes before everything
in the list puts it at the head. -/
theorem orderedInsert_eq_cons {x : Rule} {l : List Rule}
    (h : ∀ y ∈ l, y.priority ≤ x.priority) :
    List.orderedInsert (fun a b => b.priority ≤ a.priority) x l = x :: l := by
  cases l with
  | nil => rfl
  | cons b bs => simp [List.orderedInsert, h b (by simp)]

/-- filter_orderedInsert_pos: on a sorted list, filtering commutes with
inserting an element the filter keeps. -/
theorem filter_orderedInsert_pos (p : Rule → Bool) {x : Rule} (hx : p x = true) :
    (l : List Rule) → l.Sorted (fun a b => b.priority ≤ a.priority) →
      (List.orderedInsert (fun a b => b.priority ≤ a.priority) x l).filter p
        = List.orderedInsert (fun a b => b.priority ≤ a.priority) x (l.filter p)
  | [], _ => by simp [hx]
  | b :: bs, hs => by
    rw [List.sorted_cons] at hs
    by_cases hb : b.priority ≤ x.priority
    · have hall : ∀ y ∈ (b :: bs).filter p, y.priority ≤ x.priority := by
        intro y hy
        have hy' := List.mem_of_mem_filter hy
        rcases List.mem_cons.mp hy' with rfl | hmem
        · exact hb
        · exact Nat.le_trans (hs.1 y hmem) hb
      have hins : List.orderedInsert (fun a b => b.priority ≤ a.priority) x (b :: bs)
          = x :: b :: bs := by
        simp [List.orderedInsert, hb]
      rw [hins, List.filter_cons_of_pos (by simp [hx]), orderedInsert_eq_cons hall]
    · have hins : List.orderedInsert (fun a b => b.priority ≤ a.priority) x (b :: bs)
          = b :: List.orderedInsert (fun a b => b.priority ≤ a.priority) x bs := by
        simp [List.orderedInsert, hb]
      rw [hins]
      cases hpb : p b with
      | true =>
        rw [List.filter_cons_of_pos (by simp [hpb]),
          List.filter_cons_of_pos (by simp [hpb]),
          filter_orderedInsert_pos p hx bs hs.2]
        have hins' : List.orderedInsert (fun a b => b.priority ≤ a.priority) x
            (b :: bs.filter p)
            = b :: List.orderedInsert (fun a b => b.priority ≤ a.priority) x (bs.filter p) := by
          simp [List.orderedInsert, hb]
        rw [hins']
      | false =>
        rw [List.filter_cons_of_neg (by simp [hpb]),
          List.filter_cons_of_neg (by simp [hpb]),
          filter_orderedInsert_pos p hx bs hs.2]

/-- filter_orderedInsert_neg: inserting an element the filter drops does not
change the filtered list. -/
theorem filter_orderedInsert_neg (p : Rule → Bool) {x : Rule} (hx : p x = false) :
    (l : List Rule) →
      (List.orderedInsert (fun a b => b.priority ≤ a.priority) x l).filter p = l.filter p
  | [] => by simp [hx]
  | b :: bs => by
    by_cases hb : b.priority ≤ x.priority
    · have hins : List.orderedInsert (fun a b => b.priority ≤ a.priority) x (b :: bs)
          = x :: b :: bs := by
        simp [List.orderedInsert, hb]
      rw [hins, List.filter_cons_of_neg (by simp [hx])]
    · have hins : List.orderedInsert (fun a b => b.priority ≤ a.priority) x (b :: bs)
          = b :: List.orderedInsert (fun a b => b.priority ≤ a.priority) x bs := by
        simp [List.orderedInsert, hb]
      rw [hins]
      cases hpb : p b with
      | true =>
        rw [List.filter_cons_of_pos (by simp [hpb]),
          List.filter_cons_of_pos (by simp [hpb]), filter_orderedInsert_neg p hx bs]
      | false =>
        rw [List.filter_cons_of_neg (by simp [hpb]),
          List.filter_cons_of_neg (by simp [hpb]), filter_orderedInsert_neg p hx bs]

/-- sortRules_filter_comm: the stable sort commutes with filtering by any
predicate (rules kept by the filter keep their relative sorted placement). -/
theorem sortRules_filter_comm (p : Rule → Bool) (l : List Rule) :
    (sortRules l).filter p = sortRules (l.filter p) := by
  induction l with
  | nil => rfl
  | cons x xs ih =>
    cases hx : p x with
    | true =>
      simp only [sortRules, List.insertionSort] at ih ⊢
      rw [List.filter_cons_of_pos (by simp [hx]), List.insertionSort,
        filter_orderedInsert_pos p hx (xs.insertionSort _)
          (List.sorted_insertionSort _ xs), ih]
    | false =>
      simp only [sortRules, List.insertionSort] at ih ⊢
      rw [List.filter_cons_of_neg (by simp [hx]),
        filter_orderedInsert_neg p hx (xs.insertionSort _), ih]

/-- filter_priority_orderedInsert_eq: inserting a rule of priority `pr`
prepends it to the priority-`pr` subsequence (the insertion point is past
exactly the strictly-higher-priority rules). -/
theorem filter_priority_orderedInsert_eq {x : Rule} {pr : ℕ} (hx : x.priority = pr) :
    (l : List Rule) →
      (List.orderedInsert (fun a b => b.priority ≤ a.priority) x l).filter
          (fun r => r.priority == pr)
        = x :: l.filter (fun r => r.priority == pr)
  | [] => by simp [hx]
  | b :: bs => by
    by_cases hb : b.priority ≤ x.priority
    · have hins : List.orderedInsert (fun a b => b.priority ≤ a.priority) x (b :: bs)
          = x :: b :: bs := by
        simp [List.orderedInsert, hb]
      rw [hins, List.filter_cons_of_pos (by simp [hx])]
    · have hbp : (b.priority == pr) = false := by
        simp only [beq_eq_false_iff_ne, ne_eq]
        omega
      have hins : List.orderedInsert (fun a b => b.priority ≤ a.priority) x (b :: bs)
          = b :: List.orderedInsert (fun a b => b.priority ≤ a.priority) x bs := by
        simp [List.orderedInsert, hb]
      rw [hins, List.filter_cons_of_neg (by simp [hbp]),
        List.filter_cons_of_neg (by simp [hbp]), filter_priority_orderedInsert_eq hx bs]

/-- sortRules_stable: the rules of any one priority appear in the sorted
list exactly in their original stored order (stability of the sort). -/
theorem sortRules_stable (l : List Rule) (pr : ℕ) :
    (sortRules l).filter (fun r => r.priority == pr)
      = l.filter (fun r => r.priority == pr) := by
  induction l with
  | nil => rfl
  | cons x xs ih =>
    by_cases hx : x.priority = pr
    · simp only [sortRules, List.insertionSort] at ih ⊢
      rw [filter_priority_orderedInsert_eq hx (xs.insertionSort _), ih,
        List.filter_cons_of_pos (by simp [hx])]
    · simp only [sortRules, List.insertionSort] at ih ⊢
      rw [filter_orderedInsert_neg (fun r => r.priority == pr)
          (by simp [hx]) (xs.insertionSort _), ih,
        List.filter_cons_of_neg (by simp [hx])]

/-- sync_new: a fresh executor has both views empty and in sync. -/
theorem sync_new : Sync RuleExecutor.new := by
  refine ⟨by simp [RuleExecutor.new], ?_, ?_⟩
  · intro r hr
    simp [RuleExecutor.new] at hr
  · intro i r hr
    simp [RuleExecutor.new, alGet] at hr

/-- sync_add: adding a rule whose id is not yet stored preserves the sync
invariant. -/
theorem sync_add {ex : RuleExecutor} {r : Rule} (hs : Sync ex) (hf : FreshAdd ex r) :
    Sync (ex.add_rule r) := by
  obtain ⟨hnd, hfwd, hbwd⟩ := hs
  refine ⟨?_, ?_, ?_⟩
  · simp only [RuleExecutor.add_rule, List.map_append, List.map_cons, List.map_nil]
    rw [List.nodup_append]
    refine ⟨hnd, List.nodup_singleton _, ?_⟩
    intro x hx hx1
    simp only [List.mem_singleton] at hx1
    exact hf (hx1 ▸ hx)
  · intro r' hr'
    simp only [RuleExecutor.add_rule] at hr' ⊢
    rcases List.mem_append.mp hr' with hmem | hmem
    · have hne : r'.id ≠ r.id := by
        intro hcontra
        exact hf (hcontra ▸ List.mem_map_of_mem Rule.id hmem)
      rw [alGet_alInsert_ne hne, hfwd r' hmem]
    · have hr'r : r' = r := by simpa using hmem
      subst hr'r
      exact alGet_alInsert_self r'.id r' ex.rule_cache
  · intro i r'' hget
    simp only [RuleExecutor.add_rule] at hget ⊢
    by_cases hi : i = r.id
    · subst hi
      rw [alGet_alInsert_self] at hget
      obtain rfl : r = r'' := by simpa using hget
      simp
    · rw [alGet_alInsert_ne hi] at hget
      obtain ⟨hmem, hid⟩ := hbwd i r'' hget
      exact ⟨List.mem_append.mpr (Or.inl hmem), hid⟩

/-- sync_remove: removing an id deletes it from both views and preserves the
sync invariant. -/
theorem sync_remove {ex : RuleExecutor} (rid : String) (hs : Sync ex) :
    Sync (ex.remove_rule rid) := by
  obtain ⟨hnd, hfwd, hbwd⟩ := hs
  refine ⟨?_, ?_, ?_⟩
  · simp only [RuleExecutor.remove_rule]
    exact hnd.sublist (List.Sublist.map Rule.id (List.filter_sublist _))
  · intro r hr
    simp only [RuleExecutor.remove_rule] at hr ⊢
    obtain ⟨hmem, hkeep⟩ := List.mem_filter.mp hr
    have hne : r.id ≠ rid := by simpa using hkeep
    rw [alGet_alRemove_ne hne]
    exact hfwd r hmem
  · intro i r hget
    simp only [RuleExecutor.remove_rule] at hget ⊢
    by_cases hi : i = rid
    · subst hi
      rw [alGet_alRemove_self] at hget
      cases hget
    · rw [alGet_alRemove_ne hi] at hget
      obtain ⟨hmem, hid⟩ := hbwd i r hget
      refine ⟨List.mem_filter.mpr ⟨hmem, ?_⟩, hid⟩
      simp [hid, hi]

/-- sync_update: remove-then-add always preserves the sync invariant (after
the removal the added id is necessarily fresh). -/
theorem sync_update {ex : RuleExecutor} (r : Rule) (hs : Sync ex) :
    Sync (ex.update_rule r) := by
  refine sync_add (sync_remove r.id hs) ?_
  intro hmem
  simp only [RuleExecutor.remove_rule, List.mem_map] at hmem
  obtain ⟨r', hr', hid⟩ := hmem
  have := (List.mem_filter.mp hr').2
  simp [hid] at this

/-- sync_addMany: a batch of fresh adds preserves the sync invariant. -/
theorem sync_addMany :
    (rs : List Rule) → {ex : RuleExecutor} → Sync ex → FreshBatch ex rs →
      Sync (ex.add_rules rs)
  | [], _, hs, _ => hs
  | r :: rs, ex, hs, hf => by
    obtain ⟨hfr, hfrs⟩ := hf
    have h₁ : Sync (ex.add_rule r) := sync_add hs hfr
    simpa [RuleExecutor.add_rules] using sync_addMany rs h₁ hfrs

/-- sync_applyOps: any operation sequence whose adds are always fresh
preserves the sync invariant. -/
theorem sync_applyOps :
    (ops : List EngineOp) → {ex : RuleExecutor} → Sync ex → FreshTrace ex ops →
      Sync (applyOps ex ops)
  | [], _, hs, _ => hs
  | .add r :: ops, ex, hs, hf =>
    sync_applyOps ops (sync_add hs hf.1) hf.2
  | .addMany rs :: ops, ex, hs, hf => by
    have h₁ : Sync (ex.add_rules rs) := sync_addMany rs hs hf.1
    exact sync_applyOps ops h₁ hf.2
  | .remove i :: ops, ex, hs, hf =>
    sync_applyOps ops (sync_remove i hs) hf
  | .update r :: ops, ex, hs, hf =>
    sync_applyOps ops (sync_update r hs) hf

/-- C1: `execute` runs enabled rules in descending priority order, ties in
original insertion order (the sort is a stable permutation, stated as: the
sorted list is a permutation of the store, is sorted by descending priority,
and its sub-sequence at any one priority equals the stored sub-sequence);
consequently, with enabled rules of priorities 100 and 80 both writing
output field "x" under true conditions, the priority-100 rule fires first
and the priority-80 rule's write lands last, so the final `outputs["x"]` is
the priority-80 rule's value. -/
theorem C1_priority_order_stable_sort :
    (∀ l : List Rule, List.Perm (sortRules l) l)
  ∧ (∀ l : List Rule, (sortRules l).Sorted (fun a b => b.priority ≤ a.priority))
  ∧ (∀ (l : List Rule) (pr : ℕ),
      (sortRules l).filter (fun r => r.priority == pr)
        = l.filter (fun r => r.priority == pr))
  ∧ (∀ v100 v80 : Value,
      sortRules
          [mkRule "r80" 80 (.And []) [.UpdateField "x" v80] true,
           mkRule "r100" 100 (.And []) [.UpdateField "x" v100] true]
        = [mkRule "r100" 100 (.And []) [.UpdateField "x" v100] true,
           mkRule "r80" 80 (.And []) [.UpdateField "x" v80] true]
      ∧ run_rules
          [mkRule "r100" 100 (.And []) [.UpdateField "x" v100] true,
           mkRule "r80" 80 (.And []) [.UpdateField "x" v80] true] [] ⟨[], []⟩
        = .ok (⟨[], [("x", v80)]⟩, ["r100", "r80"])
      ∧ execute
          [mkRule "r80" 80 (.And []) [.UpdateField "x" v80] true,
           mkRule "r100" 100 (.And []) [.UpdateField "x" v100] true] []
        = .ok [("x", v80)]) := by
  refine ⟨fun l => List.perm_insertionSort _ l, fun l => List.sorted_insertionSort _ l,
    sortRules_stable, ?_⟩
  intro v100 v80
  refine ⟨?_, ?_, ?_⟩
  · simp [sortRules, List.insertionSort, List.orderedInsert, mkRule]
  · simp [run_rules, mkRule, evaluate_condition, evalAndList, execute_action_list,
      execute_action, alInsert]
  · simp [execute, sortRules, List.insertionSort, List.orderedInsert, mkRule, run_rules,
      evaluate_condition, evalAndList, execute_action_list, execute_action, alInsert]

/-- C4: equality never coerces across the `Int`/`Float` variants (a fact
`Int(5)` is not `Equals` a literal `Float(5.0)` and vice versa), while
`GreaterThan`/`LessThan` widen the `Int` side of a mixed pair to the float
model, so both mixed comparisons of 5 and 5.0 are false; on any operand
pairing that is not `Int`/`Float`-numeric on both sides the two order
predicates return the `TypeMismatch` error `cmpMismatchError`. -/
theorem C4_numeric_comparison :
    (∀ (facts : List (String × Value)) (f : String) (i : ℤ) (q : Rat),
        alGet facts f = some (.Int i) →
          evaluate_condition (.Equals f (.Float q)) facts = .ok false)
  ∧ (∀ (facts : List (String × Value)) (f : String) (q : Rat) (i : ℤ),
        alGet facts f = some (.Float q) →
          evaluate_condition (.Equals f (.Int i)) facts = .ok false)
  ∧ evaluate_condition (.Equals "f" (.Float 5)) [("f", .Int 5)] = .ok false
  ∧ evaluate_condition (.Equals "f" (.Int 5)) [("f", .Float 5)] = .ok false
  ∧ (∀ (facts : List (String × Value)) (f : String) (i : ℤ) (q : Rat),
        alGet facts f = some (.Int i) →
          evaluate_condition (.GreaterThan f (.Float q)) facts
              = .ok (decide ((i : Rat) > q))
          ∧ evaluate_condition (.LessThan f (.Float q)) facts
              = .ok (decide ((i : Rat) < q)))
  ∧ (∀ (facts : List (String × Value)) (f : String) (q : Rat) (i : ℤ),
        alGet facts f = some (.Float q) →
          evaluate_condition (.GreaterThan f (.Int i)) facts
              = .ok (decide (q > (i : Rat)))
          ∧ evaluate_condition (.LessThan f (.Int i)) facts
              = .ok (decide (q < (i : Rat))))
  ∧ evaluate_condition (.GreaterThan "f" (.Float 5)) [("f", .Int 5)] = .ok false
  ∧ evaluate_condition (.GreaterThan "f" (.Int 5)) [("f", .Float 5)] = .ok false
  ∧ (∀ (facts : List (String × Value)) (f : String) (fv v : Value),
        alGet facts f = some fv → (isNumeric fv && isNumeric v) = false →
          evaluate_condition (.GreaterThan f v) facts = .error (cmpMismatchError fv v)
          ∧ evaluate_condition (.LessThan f v) facts = .error (cmpMismatchError fv v))
  ∧ (∀ fv v : Value, ∃ msg, cmpMismatchError fv v = .TypeMismatch msg) := by
  refine ⟨?_, ?_, ?_, ?_, ?_, ?_, ?_, ?_, ?_, ?_⟩
  · intro facts f i q h
    simp [evaluate_condition, h, valueBeq]
  · intro facts f q i h
    simp [evaluate_condition, h, valueBeq]
  · simp [evaluate_condition, alGet, valueBeq]
  · simp [evaluate_condition, alGet, valueBeq]
  · intro facts f i q h
    constructor <;> simp [evaluate_condition, h]
  · intro facts f q i h
    constructor <;> simp [evaluate_condition, h]
  · simp [evaluate_condition, alGet]
  · simp [evaluate_condition, alGet]
  · intro facts f fv v h hnum
    cases fv <;> cases v <;> simp_all [evaluate_condition, isNumeric]
  · intro fv v
    exact ⟨_, rfl⟩

/-- C4 witness: the theorem applied at `Int(5)` facts against `Float(5.0)`
literals, and at a `String`/`String` pairing for the mismatch branch. -/
theorem C4_witness :
    (alGet [("f", Value.Int 5)] "f" = some (.Int 5)
      ∧ evaluate_condition (.Equals "f" (.Float 5)) [("f", .Int 5)] = .ok false
      ∧ evaluate_condition (.GreaterThan "f" (.Float 5)) [("f", .Int 5)]
          = .ok (decide (((5 : ℤ) : Rat) > 5)))
  ∧ (alGet [("s", Value.String "a")] "s" = some (.String "a")
      ∧ (isNumeric (Value.String "a") && isNumeric (Value.String "b")) = false
      ∧ evaluate_condition (.GreaterThan "s" (.String "b")) [("s", .String "a")]
          = .error (cmpMismatchError (.String "a") (.String "b"))) := by
  refine ⟨⟨by simp [alGet], ?_, ?_⟩, ⟨by simp [alGet], by simp [isNumeric], ?_⟩⟩
  · exact C4_numeric_comparison.1 [("f", .Int 5)] "f" 5 5 (by simp [alGet])
  · exact (C4_numeric_comparison.2.2.2.2.1 [("f", .Int 5)] "f" 5 5 (by simp [alGet])).1
  · exact (C4_numeric_comparison.2.2.2.2.2.2.2.2.1 [("s", .String "a")] "s"
      (.String "a") (.String "b") (by simp [alGet]) (by simp [isNumeric])).1

/-- C5: `And`/`Or` evaluate children strictly left to right and stop at the
first decisive result: `And([])` is true, `Or([])` is false, a cons unfolds
to exactly one child evaluation followed (only when indecisive) by the rest,
so a later sibling that would raise `TypeMismatch` is never evaluated, and
the first error actually encountered is returned. -/
theorem C5_short_circuit :
    (∀ facts, evaluate_condition (.And []) facts = .ok true)
  ∧ (∀ facts, evaluate_condition (.Or []) facts = .ok false)
  ∧ (∀ (c : Condition) (cs : List Condition) (facts : List (String × Value)),
      evaluate_condition (.And (c :: cs)) facts
        = match evaluate_condition c facts with
          | .error e => .error e
          | .ok false => .ok false
          | .ok true => evaluate_condition (.And cs) facts)
  ∧ (∀ (c : Condition) (cs : List Condition) (facts : List (String × Value)),
      evaluate_condition (.Or (c :: cs)) facts
        = match evaluate_condition c facts with
          | .error e => .error e
          | .ok true => .ok true
          | .ok false => evaluate_condition (.Or cs) facts)
  ∧ evaluate_condition (.GreaterThan "s" (.String "x")) [("a", .Int 0), ("s", .String "y")]
      = .error (cmpMismatchError (.String "y") (.String "x"))
  ∧ evaluate_condition (.And [.Equals "a" (.Int 1), .GreaterThan "s" (.String "x")])
      [("a", .Int 0), ("s", .String "y")] = .ok false
  ∧ evaluate_condition (.Or [.Equals "a" (.Int 0), .GreaterThan "s" (.String "x")])
      [("a", .Int 0), ("s", .String "y")] = .ok true := by
  refine ⟨?_, ?_, ?_, ?_, ?_, ?_, ?_⟩
  · intro facts
    simp [evaluate_condition, evalAndList]
  · intro facts
    simp [evaluate_condition, evalOrList]
  · intro c cs facts
    cases hc : evaluate_condition c facts with
    | error e => simp [evaluate_condition, evalAndList, hc]
    | ok b => cases b <;> simp [evaluate_condition, evalAndList, hc]
  · intro c cs facts
    cases hc : evaluate_condition c facts with
    | error e => simp [evaluate_condition, evalOrList, hc]
    | ok b => cases b <;> simp [evaluate_condition, evalOrList, hc]
  · simp [evaluate_condition, alGet]
  · simp [evaluate_condition, evalAndList, alGet, valueBeq]
  · simp [evaluate_condition, evalOrList, alGet, valueBeq]

/-- C6: every leaf predicate whose field is absent from the fact map returns
the `EvaluationError` "字段不存在: field"; a missing field is never a silent
false. -/
theorem C6_missing_field_error (field : String) (value : Value)
    (facts : List (String × Value)) (h : alGet facts field = none) :
    evaluate_condition (.Equals field value) facts
        = .error (.EvaluationError ("字段不存在: " ++ field))
    ∧ evaluate_condition (.GreaterThan field value) facts
        = .error (.EvaluationError ("字段不存在: " ++ field))
    ∧ evaluate_condition (.LessThan field value) facts
        = .error (.EvaluationError ("字段不存在: " ++ field))
    ∧ evaluate_condition (.Contains field value) facts
        = .error (.EvaluationError ("字段不存在: " ++ field)) := by
  refine ⟨?_, ?_, ?_, ?_⟩ <;> simp [evaluate_condition, h, missingFieldError]

/-- C6 witness: the theorem applied to the empty fact map. -/
theorem C6_witness :
    alGet ([] : List (String × Value)) "amount" = none
    ∧ evaluate_condition (.Equals "amount" (.Int 1)) []
        = .error (.EvaluationError ("字段不存在: " ++ "amount")) :=
  ⟨rfl, (C6_missing_field_error "amount" (.Int 1) [] rfl).1⟩

/-- C2 counterexample: with a priority-100 rule that fires and writes
`outputs["x"]` followed by a priority-80 rule whose condition references a
missing field, `execute` returns only the bare error — the caller-visible
result is `Except.error` and carries no outputs map, so the outputs already
applied by the earlier rule are NOT visible to the caller (the claim's
"remain visible to the caller rather than being discarded" is false: the
context holding them is dropped on the error path). -/
theorem C2_counterexample :
    execute
        [mkRule "a" 100 (.And []) [.UpdateField "x" (.Int 1)] true,
         mkRule "b" 80 (.Equals "missing" .Null) [] true] []
      = .error (.EvaluationError ("字段不存在: " ++ "missing"))
    ∧ ∀ outputs : List (String × Value),
        execute
            [mkRule "a" 100 (.And []) [.UpdateField "x" (.Int 1)] true,
             mkRule "b" 80 (.Equals "missing" .Null) [] true] []
          ≠ .ok outputs := by
  constructor
  · simp [execute, sortRules, List.insertionSort, List.orderedInsert, mkRule, run_rules,
      evaluate_condition, evalAndList, execute_action_list, execute_action, alInsert,
      alGet, missingFieldError]
  · intro outputs h
    rw [show execute
          [mkRule "a" 100 (.And []) [.UpdateField "x" (.Int 1)] true,
           mkRule "b" 80 (.Equals "missing" .Null) [] true] []
        = .error (.EvaluationError ("字段不存在: " ++ "missing")) from by
      simp [execute, sortRules, List.insertionSort, List.orderedInsert, mkRule, run_rules,
        evaluate_condition, evalAndList, execute_action_list, execute_action, alInsert,
        alGet, missingFieldError]] at h
    cases h

/-- C2 (amended): when evaluating a rule's condition returns an error during
the run, the whole run aborts at that point (no later rule runs) and that
first error is returned verbatim; the outputs already applied by earlier
higher-priority rules are discarded — the caller receives only the error,
since `execute` yields an error exactly when the loop does and the error
result carries no outputs (action execution itself cannot fail, see C10). -/
theorem C2_first_error_aborts :
    (∀ (l₁ : List Rule) (r : Rule) (l₂ : List Rule) (facts : List (String × Value))
        (c c' : RuleContext) (fired : List String) (e : RuleEngineError),
        run_rules l₁ facts c = .ok (c', fired) → r.enabled = true →
        evaluate_condition r.condition facts = .error e →
        run_rules (l₁ ++ r :: l₂) facts c = .error e)
  ∧ (∀ (rules : List Rule) (facts : List (String × Value)) (e : RuleEngineError),
      execute rules facts = .error e ↔
        run_rules (sortRules rules) facts ⟨facts, []⟩ = .error e) := by
  constructor
  · intro l₁ r l₂ facts c c' fired e h1 hr hev
    simp only [run_rules_append, h1, run_rules_cons_enabled hr, hev]
  · intro rules facts e
    cases hrun : run_rules (sortRules rules) facts ⟨facts, []⟩ with
    | error e' => simp [execute, hrun]
    | ok p => simp [execute, hrun]

/-- C2 witness: the amended theorem applied to the concrete two-rule store
of the counterexample. -/
theorem C2_witness :
    run_rules [mkRule "a" 100 (.And []) [.UpdateField "x" (.Int 1)] true] [] ⟨[], []⟩
        = .ok (⟨[], [("x", Value.Int 1)]⟩, ["a"])
    ∧ (mkRule "b" 80 (.Equals "missing" .Null) [] true).enabled = true
    ∧ evaluate_condition (mkRule "b" 80 (.Equals "missing" .Null) [] true).condition []
        = .error (missingFieldError "missing")
    ∧ run_rules
        ([mkRule "a" 100 (.And []) [.UpdateField "x" (.Int 1)] true]
          ++ mkRule "b" 80 (.Equals "missing" .Null) [] true
            :: [mkRule "c" 10 (.And []) [.UpdateField "y" (.Int 2)] true]) [] ⟨[], []⟩
        = .error (missingFieldError "missing") := by
  have h1 : run_rules [mkRule "a" 100 (.And []) [.UpdateField "x" (.Int 1)] true]
      [] ⟨[], []⟩ = .ok (⟨[], [("x", Value.Int 1)]⟩, ["a"]) := by
    simp [run_rules, mkRule, evaluate_condition, evalAndList, execute_action_list,
      execute_action, alInsert]
  have h2 : (mkRule "b" 80 (.Equals "missing" .Null) [] true).enabled = true := rfl
  have h3 : evaluate_condition
      (mkRule "b" 80 (.Equals "missing" .Null) [] true).condition []
      = .error (missingFieldError "missing") := by
    simp [mkRule, evaluate_condition, alGet]
  exact ⟨h1, h2, h3, C2_first_error_aborts.1 _ _ _ _ _ _ _ _ h1 h2 h3⟩

/-- C3 counterexample: `add_rule` pushes onto the list unconditionally, so
adding a rule whose id "a" is already stored leaves TWO list entries with id
"a" while the cache keeps only the newer rule; the stale first list entry is
absent from the index (it maps "a" to the newer rule), so the two views are
out of sync and ids are not unique — refuting both "replaces the old rule
rather than leaving two list entries" and the list/index sync invariant. -/
theorem C3_counterexample :
    ((RuleExecutor.new.add_rule (mkRule "a" 50 (.And []) [] true)).add_rule
          (mkRule "a" 60 (.And []) [] true)).rules
        = [mkRule "a" 50 (.And []) [] true, mkRule "a" 60 (.And []) [] true]
    ∧ alGet ((RuleExecutor.new.add_rule (mkRule "a" 50 (.And []) [] true)).add_rule
          (mkRule "a" 60 (.And []) [] true)).rule_cache "a"
        = some (mkRule "a" 60 (.And []) [] true)
    ∧ mkRule "a" 50 (.And []) [] true ≠ mkRule "a" 60 (.And []) [] true
    ∧ ¬ Sync ((RuleExecutor.new.add_rule (mkRule "a" 50 (.And []) [] true)).add_rule
          (mkRule "a" 60 (.And []) [] true)) := by
  refine ⟨?_, ?_, ?_, ?_⟩
  · simp [RuleExecutor.new, RuleExecutor.add_rule]
  · simp [RuleExecutor.new, RuleExecutor.add_rule, mkRule, alInsert, alGet]
  · intro h
    have := congrArg Rule.priority h
    simp [mkRule] at this
  · intro hs
    have hnd := hs.1
    simp [RuleExecutor.new, RuleExecutor.add_rule, mkRule] at hnd

/-- C3 (amended): along any operation sequence in which `add_rule` (and each
add inside `add_rules`) is only ever called with an id not currently stored,
the rule list and the id-indexed cache stay in sync: list ids are unique,
every listed rule is in the cache under its id, and every cache binding
points back to a listed rule with that id; `remove_rule` and `update_rule`
need no freshness side condition (update removes the id first).  Adding an
id that is already stored, however, appends a duplicate list entry while the
cache keeps only the last rule (see the counterexample), so the claimed
unconditional last-write-wins replacement does not hold. -/
theorem C3_store_sync (ops : List EngineOp) (hf : FreshTrace RuleExecutor.new ops) :
    Sync (applyOps RuleExecutor.new ops) :=
  sync_applyOps ops sync_new hf

/-- C3 witness: a concrete fresh trace of all four operations. -/
theorem C3_witness :
    FreshTrace RuleExecutor.new
        [.add (mkRule "a" 50 (.And []) [] true),
         .addMany [mkRule "b" 60 (.And []) [] true],
         .update (mkRule "b" 70 (.And []) [] true),
         .remove "a"]
    ∧ Sync (applyOps RuleExecutor.new
        [.add (mkRule "a" 50 (.And []) [] true),
         .addMany [mkRule "b" 60 (.And []) [] true],
         .update (mkRule "b" 70 (.And []) [] true),
         .remove "a"]) := by
  have hf : FreshTrace RuleExecutor.new
      [.add (mkRule "a" 50 (.And []) [] true),
       .addMany [mkRule "b" 60 (.And []) [] true],
       .update (mkRule "b" 70 (.And []) [] true),
       .remove "a"] := by
    simp [FreshTrace, FreshBatch, FreshAdd, RuleExecutor.new, RuleExecutor.add_rule,
      RuleExecutor.add_rules, RuleExecutor.remove_rule, RuleExecutor.update_rule, mkRule]
  exact ⟨hf, C3_store_sync _ hf⟩

/-- C7: within one `execute` call every condition is evaluated against the
caller-supplied facts only, never against the accumulating outputs: from any
two starting contexts (in particular any two accumulated-outputs states) the
run loop produces the identical fired-rule trace and identical error, so
outputs written by higher-priority rules cannot influence whether a
lower-priority rule fires; `execute` itself is the outputs-projection of
that loop started from empty outputs. -/
theorem C7_conditions_read_original_facts :
    (∀ (rules : List Rule) (facts : List (String × Value)) (c₁ c₂ : RuleContext),
        (run_rules rules facts c₁).map Prod.snd = (run_rules rules facts c₂).map Prod.snd)
  ∧ (∀ (rules : List Rule) (facts : List (String × Value)),
        execute rules facts
          = (run_rules (sortRules rules) facts ⟨facts, []⟩).map (fun p => p.1.outputs)) := by
  refine ⟨run_rules_trace_of_context, ?_⟩
  intro rules facts
  cases hrun : run_rules (sortRules rules) facts ⟨facts, []⟩ with
  | error e => simp [execute, hrun, Except.map]
  | ok p => simp [execute, hrun, Except.map]

/-- C8: disabled rules are skipped before their condition is ever evaluated:
the run loop over any rule list equals the loop over its enabled sublist,
`execute` on a store equals `execute` on the enabled rules only (whatever
the disabled rules' priorities), and concretely a disabled rule whose
condition would raise an error and whose action would write an output
produces neither an error nor an output. -/
theorem C8_disabled_rules_skipped :
    (∀ (l : List Rule) (facts : List (String × Value)) (c : RuleContext),
        run_rules l facts c = run_rules (l.filter (fun r => r.enabled)) facts c)
  ∧ (∀ (rules : List Rule) (facts : List (String × Value)),
        execute rules facts = execute (rules.filter (fun r => r.enabled)) facts)
  ∧ execute
      [mkRule "d" 1000 (.Equals "missing" .Null) [.UpdateField "x" (.Int 1)] false] []
      = .ok [] := by
  refine ⟨run_rules_filter_enabled, ?_, ?_⟩
  · intro rules facts
    have h1 : run_rules (sortRules rules) facts ⟨facts, []⟩
        = run_rules (sortRules (rules.filter (fun r => r.enabled))) facts ⟨facts, []⟩ := by
      rw [run_rules_filter_enabled, sortRules_filter_comm]
    simp only [execute, h1]
  · simp [execute, sortRules, List.insertionSort, List.orderedInsert, mkRule, run_rules]

/-- C9: `Rule`, `Condition`, `Action` and `Value` serialize to the externally
tagged structured form, and a serialization round trip reproduces an equal
value at every one of the four types — in particular for every `Rule`,
including rules with nested `And(Or(...), Not(...))` conditions and
`Composite` actions, `decodeRule (encodeRule r) = some r`. -/
theorem C9_serde_roundtrip :
    (∀ v : Value, decodeValue (encodeValue v) = some v)
  ∧ (∀ c : Condition, decodeCondition (encodeCondition c) = some c)
  ∧ (∀ a : Action, decodeAction (encodeAction a) = some a)
  ∧ (∀ r : Rule, decodeRule (encodeRule r) = some r) :=
  ⟨decodeValue_encodeValue, decodeCondition_encodeCondition,
    decodeAction_encodeAction, decodeRule_encodeRule⟩

/-- C10: `execute_action` returns `Ok` on every action variant and every
context (the external-service and event branches are stubs that always
succeed, so the `ActionFailed` branch is unreachable), and consequently
`execute` can only fail with an `EvaluationError` or `TypeMismatch`
produced by condition evaluation. -/
theorem C10_actions_never_fail :
    (∀ (a : Action) (c : RuleContext), ∃ c', execute_action a c = .ok c')
  ∧ (∀ (rules : List Rule) (facts : List (String × Value)) (e : RuleEngineError),
      execute rules facts = .error e → isCondError e = true) := by
  refine ⟨execute_action_ok, ?_⟩
  intro rules facts e h
  cases hrun : run_rules (sortRules rules) facts ⟨facts, []⟩ with
  | error e' =>
    have he : e' = e := by
      simp only [execute, hrun] at h
      simpa using h
    exact run_rules_error_kind _ _ _ _ (he ▸ hrun)
  | ok p => simp [execute, hrun] at h

/-- C10 witness: the theorem applied to a store whose only rule fails with a
missing-field evaluation error. -/
theorem C10_witness :
    execute [mkRule "b" 80 (.Equals "missing" .Null) [] true] []
        = .error (missingFieldError "missing")
    ∧ isCondError (missingFieldError "missing") = true := by
  have h : execute [mkRule "b" 80 (.Equals "missing" .Null) [] true] []
      = .error (missingFieldError "missing") := by
    simp [execute, sortRules, List.insertionSort, List.orderedInsert, mkRule, run_rules,
      evaluate_condition, alGet]
  exact ⟨h, C10_actions_never_fail.2 _ _ _ h⟩

end Siamese
